import Mathlib

/-!
Verification development for the Morning Crema pipeline (src/app.py).

The program is a linear pipeline: URL → video identifier → transcript →
composed script → synthesized audio, orchestrated by the `brew` handler,
with a `reset` handler that clears the session artifacts.

Strings manipulated by the regular expressions are modelled as `List Char`.
The source patterns use the class `[\w-]`, where Python 3 matches `\w`
against Unicode word characters, not only ASCII ones.  No Unicode tables
exist here, so the class is handled at three levels: the extractor is
stated once over an arbitrary class `cls` standing for `[\w-]`
(`extract_video_idW` below), so that theorems quantified over `cls` hold in
particular at Python's real class; `isTokenChar` is its ASCII instance
`[A-Za-z0-9_-]`, used for the claims whose own wording restricts tokens to
URL-safe ASCII characters; and `pyTokenChar` instantiates it faithfully for
every code point up to U+00FF, which is enough to exhibit the non-ASCII
behaviour of the program on Latin-1 inputs.
-/

namespace MorningCrema

/-! ### URL Identifier Extractor (src/app.py lines 45–55)

`extract_video_id` tries three patterns in order, each a literal piece
followed by a capture of exactly eleven `[\w-]` characters, searching for
the leftmost occurrence in the input (`re.search`). -/

/-- The ASCII part of the pattern class `[\w-]`: exactly `[A-Za-z0-9_-]`.
Python's Unicode `\w` admits further word characters; the parameterized
extractor `extract_video_idW` below accounts for them, and this instance is
used where a claim itself restricts tokens to URL-safe ASCII characters. -/
def isTokenChar (c : Char) : Bool :=
  c.isAlphanum || c = '_' || c = '-'

/-- Match exactly `n` token characters at the front of `s`, returning them. -/
def matchClassN : List Char → Nat → Option (List Char)
  | _, 0 => some []
  | [], _ + 1 => none
  | c :: rest, n + 1 =>
    if isTokenChar c then (matchClassN rest n).map (fun l => c :: l) else none

/-- Match the pattern (literal `pre` then eleven token characters) at the
front of `s`, returning the captured token. -/
def matchHere (pre s : List Char) : Option (List Char) :=
  if pre.isPrefixOf s then matchClassN (s.drop pre.length) 11 else none

/-- `re.search` for a pattern `pre([\w-]{11})`: try every start position
left to right, returning the capture of the leftmost match. -/
def searchToken (pre : List Char) : List Char → Option (List Char)
  | [] => matchHere pre []
  | c :: rest =>
    match matchHere pre (c :: rest) with
    | some tok => some tok
    | none => searchToken pre rest

/-- Literal part of the pattern `v=([\w-]{11})`. -/
def patV : List Char := ['v', '=']

/-- Literal part of the pattern `youtu\.be/([\w-]{11})`. -/
def patBe : List Char := "youtu.be/".toList

/-- Literal part of the pattern `shorts/([\w-]{11})`. -/
def patShorts : List Char := "shorts/".toList

/-- The three recognized URL shapes, in the order the source tries them. -/
def shapePats : List (List Char) := [patV, patBe, patShorts]

/-- `extract_video_id` (src/app.py lines 45–55): first pattern that matches
anywhere in the url wins; `None` when no pattern matches. -/
def extract_video_id (url : List Char) : Option (List Char) :=
  match searchToken patV url with
  | some t => some t
  | none =>
    match searchToken patBe url with
    | some t => some t
    | none => searchToken patShorts url

/-! ### Lemmas about the matcher -/

theorem matchClassN_eq_some {s t : List Char} {n : Nat}
    (h : matchClassN s n = some t) :
    t = s.take n ∧ t.length = n ∧ ∀ c ∈ t, isTokenChar c = true := by
  induction n generalizing s t with
  | zero =>
    simp [matchClassN] at h
    subst h
    simp
  | succ n ih =>
    cases s with
    | nil => simp [matchClassN] at h
    | cons c rest =>
      simp only [matchClassN] at h
      by_cases hc : isTokenChar c = true
      · rw [if_pos hc] at h
        cases htl : matchClassN rest n with
        | none => rw [htl] at h; simp at h
        | some t' =>
          rw [htl] at h
          obtain ⟨ht', hlen, hall⟩ := ih htl
          have ht : t = c :: t' := by
            have := h.symm
            simpa using this
          subst ht
          refine ⟨by simp [ht'], by simp [hlen], ?_⟩
          intro d hd
          rcases List.mem_cons.mp hd with hd | hd
          · rw [hd]; exact hc
          · exact hall d hd
      · rw [if_neg hc] at h
        simp at h

theorem matchClassN_take {s : List Char} {n : Nat}
    (hn : n ≤ s.length) (hall : ∀ c ∈ s.take n, isTokenChar c = true) :
    matchClassN s n = some (s.take n) := by
  induction n generalizing s with
  | zero => simp [matchClassN]
  | succ n ih =>
    cases s with
    | nil => simp at hn
    | cons c rest =>
      have hc : isTokenChar c = true := by
        apply hall
        simp [List.take]
      have hrest : matchClassN rest n = some (rest.take n) := by
        apply ih
        · simpa using Nat.le_of_succ_le_succ hn
        · intro d hd
          apply hall
          simp [List.take, hd]
      simp [matchClassN, hc, hrest, List.take]

theorem matchHere_eq_some {pre s t : List Char} (h : matchHere pre s = some t) :
    ∃ b, s = pre ++ t ++ b ∧ t.length = 11 ∧ ∀ c ∈ t, isTokenChar c = true := by
  unfold matchHere at h
  by_cases hp : pre.isPrefixOf s
  · rw [if_pos hp] at h
    obtain ⟨rest, hrest⟩ := List.isPrefixOf_iff_prefix.mp hp
    have hdrop : s.drop pre.length = rest := by
      rw [← hrest]
      exact List.drop_left pre rest
    rw [hdrop] at h
    obtain ⟨ht, hlen, hall⟩ := matchClassN_eq_some h
    refine ⟨rest.drop 11, ?_, hlen, hall⟩
    rw [← hrest, List.append_assoc]
    congr 1
    rw [ht, List.take_append_drop]
  · rw [if_neg hp] at h
    simp at h

theorem matchHere_append {pre t b : List Char} (hlen : t.length = 11)
    (hall : ∀ c ∈ t, isTokenChar c = true) :
    matchHere pre (pre ++ t ++ b) = some t := by
  have hp : pre.isPrefixOf (pre ++ t ++ b) = true := by
    apply List.isPrefixOf_iff_prefix.mpr
    rw [List.append_assoc]
    exact List.prefix_append pre (t ++ b)
  unfold matchHere
  rw [if_pos hp, List.append_assoc, List.drop_left]
  have htake : (t ++ b).take 11 = t := by
    rw [← hlen]
    exact List.take_left t b
  rw [matchClassN_take (by simp [hlen]) (by rw [htake]; exact hall), htake]

theorem searchToken_of_matchHere {pre s tok : List Char}
    (hm : matchHere pre s = some tok) : searchToken pre s = some tok := by
  cases s with
  | nil => simpa [searchToken] using hm
  | cons c rest => simp [searchToken, hm]

theorem searchToken_eq_some {pre s t : List Char} (h : searchToken pre s = some t) :
    ∃ a b, s = a ++ pre ++ t ++ b ∧ t.length = 11 ∧ ∀ c ∈ t, isTokenChar c = true := by
  induction s with
  | nil =>
    obtain ⟨b, hb, hlen, hall⟩ := matchHere_eq_some (h : matchHere pre [] = some t)
    exact ⟨[], b, by simpa using hb, hlen, hall⟩
  | cons c rest ih =>
    rw [searchToken] at h
    cases hm : matchHere pre (c :: rest) with
    | some tok =>
      rw [hm] at h
      obtain ⟨b, hb, hlen, hall⟩ := matchHere_eq_some hm
      have ht : tok = t := by simpa using h
      subst ht
      exact ⟨[], b, by simpa using hb, hlen, hall⟩
    | none =>
      rw [hm] at h
      obtain ⟨a, b, hb, hlen, hall⟩ := ih h
      exact ⟨c :: a, b, by simp [hb], hlen, hall⟩

theorem searchToken_isSome_append (pre a t b : List Char) (hlen : t.length = 11)
    (hall : ∀ c ∈ t, isTokenChar c = true) :
    (searchToken pre (a ++ pre ++ t ++ b)).isSome = true := by
  induction a with
  | nil =>
    have := searchToken_of_matchHere (@matchHere_append pre t b hlen hall)
    simp only [List.nil_append]
    rw [this]
    rfl
  | cons c a' ih =>
    have hs : (c :: a') ++ pre ++ t ++ b = c :: (a' ++ pre ++ t ++ b) := by simp
    rw [hs, searchToken]
    cases hm : matchHere pre (c :: (a' ++ pre ++ t ++ b)) with
    | some tok => rfl
    | none => exact ih

theorem searchToken_eq_none_of_not_mem {pre s : List Char} {c : Char}
    (hc : c ∈ pre) (hcs : c ∉ s) : searchToken pre s = none := by
  cases hst : searchToken pre s with
  | none => rfl
  | some t =>
    exfalso
    obtain ⟨a, b, hb, -, -⟩ := searchToken_eq_some hst
    exact hcs (by rw [hb]; simp [hc])

theorem extract_video_id_sound {url t : List Char}
    (h : extract_video_id url = some t) :
    (∃ p ∈ shapePats, ∃ a b, url = a ++ p ++ t ++ b) ∧
      t.length = 11 ∧ ∀ c ∈ t, isTokenChar c = true := by
  unfold extract_video_id at h
  cases h1 : searchToken patV url with
  | some tok =>
    rw [h1] at h
    have ht : tok = t := by simpa using h
    subst ht
    obtain ⟨a, b, hb, hlen, hall⟩ := searchToken_eq_some h1
    exact ⟨⟨patV, by simp [shapePats], a, b, hb⟩, hlen, hall⟩
  | none =>
    rw [h1] at h
    cases h2 : searchToken patBe url with
    | some tok =>
      rw [h2] at h
      have ht : tok = t := by simpa using h
      subst ht
      obtain ⟨a, b, hb, hlen, hall⟩ := searchToken_eq_some h2
      exact ⟨⟨patBe, by simp [shapePats], a, b, hb⟩, hlen, hall⟩
    | none =>
      rw [h2] at h
      obtain ⟨a, b, hb, hlen, hall⟩ := searchToken_eq_some h
      exact ⟨⟨patShorts, by simp [shapePats], a, b, hb⟩, hlen, hall⟩

theorem extract_video_id_isSome_of_search {url : List Char}
    (h : (searchToken patV url).isSome = true ∨ (searchToken patBe url).isSome = true ∨
      (searchToken patShorts url).isSome = true) :
    (extract_video_id url).isSome = true := by
  unfold extract_video_id
  cases h1 : searchToken patV url with
  | some tok => rfl
  | none =>
    cases h2 : searchToken patBe url with
    | some tok => rfl
    | none =>
      rcases h with h | h | h
      · rw [h1] at h; simp at h
      · rw [h2] at h; simp at h
      · exact h

theorem extract_video_id_isSome_of_shape {url p t a b : List Char}
    (hp : p ∈ shapePats) (hurl : url = a ++ p ++ t ++ b)
    (hlen : t.length = 11) (hall : ∀ c ∈ t, isTokenChar c = true) :
    (extract_video_id url).isSome = true := by
  subst hurl
  apply extract_video_id_isSome_of_search
  simp only [shapePats, List.mem_cons, List.not_mem_nil, or_false] at hp
  rcases hp with hp | hp | hp <;> subst hp
  · exact Or.inl (searchToken_isSome_append _ _ _ _ hlen hall)
  · exact Or.inr (Or.inl (searchToken_isSome_append _ _ _ _ hlen hall))
  · exact Or.inr (Or.inr (searchToken_isSome_append _ _ _ _ hlen hall))

/-! ### Transcript Retriever (src/app.py lines 58–65)

A track of `youtube_transcript_api` carries a language tag, an
authored/generated flag, and its timed fragments; `transcript.fetch()` is
modelled as reading the track's fragments. -/

structure Fragment where
  text : String
  start : Int
  duration : Int
deriving DecidableEq

structure Track where
  language : String
  isGenerated : Bool
  fragments : List Fragment
deriving DecidableEq

/-- Modelled from the spec: the transcript service's track lookup for one
language.  The `youtube_transcript_api` library is not part of this
repository; the spec describes the selection as picking a track whose
language matches, separately for human-authored and auto-generated tracks. -/
def find_track_for_lang (tl : List Track) (generated : Bool) (lang : String) : Option Track :=
  tl.find? (fun t => t.isGenerated == generated && t.language == lang)

/-- Modelled from the spec: ranked language preference search — "first
matching language wins". -/
def find_first_track (tl : List Track) (generated : Bool) : List String → Option Track
  | [] => none
  | l :: ls =>
    match find_track_for_lang tl generated l with
    | some t => some t
    | none => find_first_track tl generated ls

/-- Modelled from the spec: `find_transcript` selects a human-authored track
matching the ranked language preference list. -/
def find_transcript (tl : List Track) (langs : List String) : Option Track :=
  find_first_track tl false langs

/-- Modelled from the spec: `find_generated_transcript` selects an
auto-generated track matching the ranked language preference list. -/
def find_generated_transcript (tl : List Track) (langs : List String) : Option Track :=
  find_first_track tl true langs

/-- The ranked preference list of src/app.py line 61. -/
def preferredLangs : List String := ["ko", "en", "en-US", "en-GB"]

/-- The generated-track fallback list of src/app.py line 63. -/
def generatedLangs : List String := ["en", "en-US", "en-GB"]

/-- The try/except fallback of src/app.py lines 60–63. -/
def select_transcript (tl : List Track) : Option Track :=
  match find_transcript tl preferredLangs with
  | some t => some t
  | none => find_generated_transcript tl generatedLangs

/-- src/app.py line 65: `" ".join(item["text"] for item in parts)`. -/
def transcriptText (t : Track) : String :=
  String.intercalate " " (t.fragments.map Fragment.text)

/-! ### Pipeline environment and remote services

The three remote services are modelled as oracles; each call the pipeline
makes is recorded as a `CallEvent` carrying the argument it was made with. -/

inductive FetchErr
  | videoUnavailable
  | transcriptsDisabled
  | noTranscriptFound
deriving DecidableEq

/-- The speech-synthesis response object: it may expose a readable stream
(`read`), a byte-buffer attribute (`content`), both, or neither. -/
structure TtsResponse (β : Type) where
  readAttr : Option β
  contentAttr : Option β
deriving DecidableEq

/-- What `create_tts_audio` can hand back: extracted bytes, or — when the
response exposes neither attribute — the response object itself. -/
inductive TtsValue (β : Type)
  | bytes (b : β)
  | raw (r : TtsResponse β)
deriving DecidableEq

structure Env (β : Type) where
  listTranscripts : List Char → Except FetchErr (List Track)
  chatCompletion : String → Except String String
  ttsSpeech : String → Except String (TtsResponse β)

/-- `fetch_transcript` (src/app.py lines 58–65): list the available tracks
(remote), select per the two-tier fallback, join the fragment texts.  A
failed fallback lookup raises `NoTranscriptFound`, which escapes this
function. -/
def fetch_transcript {β : Type} (env : Env β) (video_id : List Char) : Except FetchErr String :=
  match env.listTranscripts video_id with
  | .error e => .error e
  | .ok tl =>
    match select_transcript tl with
    | some t => .ok (transcriptText t)
    | none => .error .noTranscriptFound

/-- `create_chat_completion` (src/app.py lines 68–94): both client revisions
send the same system/user payload and return the single generated text
unchanged, so the two-shape shim is one oracle call on the transcript text. -/
def create_chat_completion {β : Type} (env : Env β) (transcript_text : String) :
    Except String String :=
  env.chatCompletion transcript_text

/-- src/app.py lines 113–117: normalize the synthesis response — a `read`
attribute wins, then a `content` attribute, else the response itself is
returned unchanged. -/
def normalize_tts_response {β : Type} (r : TtsResponse β) : TtsValue β :=
  match r.readAttr with
  | some b => .bytes b
  | none =>
    match r.contentAttr with
    | some b => .bytes b
    | none => .raw r

/-- `create_tts_audio` (src/app.py lines 97–117): one synthesis call, then
response-shape normalization. -/
def create_tts_audio {β : Type} (env : Env β) (script : String) :
    Except String (TtsValue β) :=
  (env.ttsSpeech script).map normalize_tts_response

/-! ### Pipeline Orchestrator (src/app.py lines 131–164) -/

/-- The session artifacts (`st.session_state`): script, audio, and the URL
input's backing value. -/
structure SState (β : Type) where
  script : Option String
  audio : Option (TtsValue β)
  video_url : String
deriving DecidableEq

inductive CallEvent
  | listTranscripts (video_id : List Char)
  | chatCompletion (transcript_text : String)
  | ttsSpeech (input : String)
deriving DecidableEq

inductive Outcome
  | errKeyMissing
  | errUrlMissing
  | errInvalidUrl
  | errTranscript (e : FetchErr)
  | errGeneric (detail : String)
  | done
deriving DecidableEq

def FetchErr.excName : FetchErr → String
  | .videoUnavailable => "VideoUnavailable"
  | .transcriptsDisabled => "TranscriptsDisabled"
  | .noTranscriptFound => "NoTranscriptFound"

/-- The `st.error` message each outcome surfaces (src/app.py lines 145, 146,
152, 162, 164); `done` surfaces none. -/
def Outcome.message : Outcome → Option String
  | .errKeyMissing => some "OPENAI_API_KEY가 필요합니다. 사이드바에 입력해 주세요."
  | .errUrlMissing => some "YouTube URL을 입력해 주세요."
  | .errInvalidUrl => some "유효한 YouTube URL을 입력해 주세요."
  | .errTranscript e =>
    some ("자막을 찾을 수 없습니다. 다른 영상으로 시도해 주세요. (" ++ e.excName ++ ")")
  | .errGeneric d => some ("문제가 발생했습니다: " ++ d)
  | .done => none

/-- The three locally detected precondition failures. -/
def Outcome.isValidationError : Outcome → Bool
  | .errKeyMissing => true
  | .errUrlMissing => true
  | .errInvalidUrl => true
  | _ => false

/-- The `if brew:` handler (src/app.py lines 143–164): validate credential,
URL, and extracted identifier, then run fetch → compose → synthesize,
recording each remote call.  The script artifact is written as soon as
composition succeeds (line 158), before synthesis runs. -/
def brew {β : Type} (env : Env β) (api_key : String) (s : SState β) :
    SState β × Outcome × List CallEvent :=
  if api_key = "" then (s, .errKeyMissing, [])
  else if s.video_url = "" then (s, .errUrlMissing, [])
  else
    match extract_video_id s.video_url.toList with
    | none => (s, .errInvalidUrl, [])
    | some vid =>
      match fetch_transcript env vid with
      | .error e => (s, .errTranscript e, [.listTranscripts vid])
      | .ok transcript_text =>
        match create_chat_completion env transcript_text with
        | .error m =>
          (s, .errGeneric m, [.listTranscripts vid, .chatCompletion transcript_text])
        | .ok g =>
          let s1 : SState β := { s with script := some g }
          match create_tts_audio env g with
          | .error m =>
            (s1, .errGeneric m,
              [.listTranscripts vid, .chatCompletion transcript_text, .ttsSpeech g])
          | .ok a =>
            ({ s1 with audio := some a }, .done,
              [.listTranscripts vid, .chatCompletion transcript_text, .ttsSpeech g])

/-- The `if reset:` handler (src/app.py lines 131–135): clear script, audio,
and the URL input. -/
def reset_state {β : Type} (s : SState β) : SState β :=
  { s with script := none, audio := none, video_url := "" }

/-- The orchestrator's idle state: no artifacts held. -/
def Idle {β : Type} (s : SState β) : Prop :=
  s.script = none ∧ s.audio = none ∧ s.video_url = ""

/-! ### Lemmas about track selection -/

/-- There is a track in `tl` with the given authored/generated flag and
language. -/
def hasTrack (tl : List Track) (generated : Bool) (lang : String) : Bool :=
  tl.any (fun t => t.isGenerated == generated && t.language == lang)

theorem find_track_for_lang_eq_some {tl : List Track} {g : Bool} {l : String} {t : Track}
    (h : find_track_for_lang tl g l = some t) :
    t ∈ tl ∧ t.isGenerated = g ∧ t.language = l := by
  have hmem := List.mem_of_find?_eq_some h
  have hp := List.find?_some h
  simp only [Bool.and_eq_true, beq_iff_eq] at hp
  exact ⟨hmem, hp.1, hp.2⟩

theorem find_track_for_lang_eq_none {tl : List Track} {g : Bool} {l : String} :
    find_track_for_lang tl g l = none ↔ hasTrack tl g l = false := by
  unfold find_track_for_lang hasTrack
  rw [List.find?_eq_none, List.any_eq_false]

theorem hasTrack_of_mem {tl : List Track} {g : Bool} {t : Track}
    (hmem : t ∈ tl) (hg : t.isGenerated = g) :
    hasTrack tl g t.language = true := by
  unfold hasTrack
  rw [List.any_eq_true]
  exact ⟨t, hmem, by simp [hg]⟩

theorem find_first_track_eq_none {tl : List Track} {g : Bool} {langs : List String} :
    find_first_track tl g langs = none ↔ ∀ l ∈ langs, hasTrack tl g l = false := by
  induction langs with
  | nil => simp [find_first_track]
  | cons l ls ih =>
    rw [find_first_track]
    cases hm : find_track_for_lang tl g l with
    | some t =>
      simp only [List.mem_cons]
      constructor
      · intro h; exact absurd h (by simp)
      · intro h
        have := find_track_for_lang_eq_none.mpr (h l (Or.inl rfl))
        rw [this] at hm
        exact absurd hm (by simp)
    | none =>
      have hl := find_track_for_lang_eq_none.mp hm
      simp only [List.mem_cons]
      rw [ih]
      constructor
      · intro h m hm'
        rcases hm' with hm' | hm'
        · rw [hm']; exact hl
        · exact h m hm'
      · intro h m hm'
        exact h m (Or.inr hm')

theorem find_first_track_eq_some {tl : List Track} {g : Bool} {langs : List String} {t : Track}
    (h : find_first_track tl g langs = some t) :
    t ∈ tl ∧ t.isGenerated = g ∧
      langs.find? (fun l => hasTrack tl g l) = some t.language := by
  induction langs with
  | nil => simp [find_first_track] at h
  | cons l ls ih =>
    rw [find_first_track] at h
    cases hm : find_track_for_lang tl g l with
    | some t0 =>
      rw [hm] at h
      have ht : t0 = t := by simpa using h
      subst ht
      obtain ⟨hmem, hg, hl⟩ := find_track_for_lang_eq_some hm
      have htrk : hasTrack tl g l = true := by
        rw [← hl]
        exact hasTrack_of_mem hmem hg
      refine ⟨hmem, hg, ?_⟩
      rw [List.find?_cons_of_pos _ htrk, hl]
    | none =>
      rw [hm] at h
      obtain ⟨hmem, hg, hfind⟩ := ih h
      have htrk := find_track_for_lang_eq_none.mp hm
      refine ⟨hmem, hg, ?_⟩
      rw [List.find?_cons_of_neg _ (by simp [htrk]), hfind]

theorem find_first_track_isSome {tl : List Track} {g : Bool} {langs : List String}
    (h : ∃ l ∈ langs, hasTrack tl g l = true) :
    (find_first_track tl g langs).isSome = true := by
  induction langs with
  | nil => simp at h
  | cons l ls ih =>
    rw [find_first_track]
    cases hm : find_track_for_lang tl g l with
    | some t => rfl
    | none =>
      apply ih
      rcases h with ⟨m, hmem, htrk⟩
      rcases List.mem_cons.mp hmem with hm' | hm'
      · subst hm'
        rw [find_track_for_lang_eq_none.mp hm] at htrk
        exact absurd htrk (by simp)
      · exact ⟨m, hm', htrk⟩

/-! ### Lemmas about the fragment join -/

/-- The claim's description of the joined output: the fragment texts in
their original order with a single space between consecutive fragments. -/
def joinSpec : List String → String
  | [] => ""
  | [x] => x
  | x :: y :: l => x ++ " " ++ joinSpec (y :: l)

theorem intercalate_go_join (l : List String) :
    ∀ acc : String, String.intercalate.go acc " " l = joinSpec (acc :: l) := by
  induction l with
  | nil => intro acc; rfl
  | cons x r ih =>
    intro acc
    show String.intercalate.go (acc ++ " " ++ x) " " r = joinSpec (acc :: x :: r)
    rw [ih]
    cases r with
    | nil => rfl
    | cons y r' => simp [joinSpec, String.append_assoc]

theorem intercalate_space_eq_joinSpec (l : List String) :
    String.intercalate " " l = joinSpec l := by
  cases l with
  | nil => rfl
  | cons a as => exact intercalate_go_join as a

theorem transcriptText_texts_only {t u : Track}
    (h : t.fragments.map Fragment.text = u.fragments.map Fragment.text) :
    transcriptText t = transcriptText u := by
  unfold transcriptText
  rw [h]

/-! ### Claim-side predicates for the extractor -/

/-- `t` occurs in `url` as the captured token of one of the three recognized
shapes. -/
def shapeTokenAt (url t : List Char) : Prop :=
  ∃ p ∈ shapePats, ∃ a b, url = a ++ p ++ t ++ b

/-- `url` contains one of the three recognized shapes with the token read as
the original claim words it: a shape literal followed by exactly eleven
URL-safe ASCII characters. -/
def containsShape (url : List Char) : Prop :=
  ∃ t, t.length = 11 ∧ (∀ c ∈ t, isTokenChar c = true) ∧ shapeTokenAt url t

/-- Claim C9: a URL containing a recognized shape followed by a run of more
than eleven URL-safe characters is not rejected, and for a URL that is such
a shape followed by the run, the returned identifier is the first eleven
characters of the run. -/
theorem extract_id_truncates_long_run :
    (∀ a p run b : List Char, p ∈ shapePats → (∀ c ∈ run, isTokenChar c = true) →
       12 ≤ run.length → (extract_video_id (a ++ p ++ run ++ b)).isSome = true) ∧
    (∀ p run : List Char, p ∈ shapePats → (∀ c ∈ run, isTokenChar c = true) →
       12 ≤ run.length → extract_video_id (p ++ run) = some (run.take 11)) := by
  have hlen11 : ∀ run : List Char, 12 ≤ run.length → (run.take 11).length = 11 := by
    intro run h
    rw [List.length_take]
    omega
  have hall11 : ∀ run : List Char, (∀ c ∈ run, isTokenChar c = true) →
      ∀ c ∈ run.take 11, isTokenChar c = true := by
    intro run hall c hc
    exact hall c (List.take_subset 11 run hc)
  constructor
  · intro a p run b hp hall hlen
    have hurl : a ++ p ++ run ++ b = a ++ p ++ run.take 11 ++ (run.drop 11 ++ b) := by
      simp only [List.append_assoc]
      rw [← List.append_assoc (run.take 11) (run.drop 11) b, List.take_append_drop]
    exact extract_video_id_isSome_of_shape hp hurl (hlen11 run hlen) (hall11 run hall)
  · intro p run hp hall hlen
    have hmatch : ∀ q : List Char, searchToken q (q ++ run) = some (run.take 11) := by
      intro q
      have hq : q ++ run = q ++ run.take 11 ++ run.drop 11 := by
        simp only [List.append_assoc]
        rw [List.take_append_drop]
      rw [hq]
      exact searchToken_of_matchHere (matchHere_append (hlen11 run hlen) (hall11 run hall))
    have hnorun : ∀ c : Char, isTokenChar c = false → c ∉ run := by
      intro c hc hmem
      rw [hall c hmem] at hc
      exact absurd hc (by simp)
    have hnone : ∀ q : List Char, (∃ c, c ∈ q ∧ c ∉ p ∧ isTokenChar c = false) →
        searchToken q (p ++ run) = none := by
      rintro q ⟨c, hcq, hcp, hct⟩
      apply searchToken_eq_none_of_not_mem hcq
      intro hmem
      rcases List.mem_append.mp hmem with hm | hm
      · exact hcp hm
      · exact hnorun c hct hm
    have hp3 : p = patV ∨ p = patBe ∨ p = patShorts := by
      simpa [shapePats] using hp
    rcases hp3 with h | h | h <;> subst h
    · show extract_video_id (patV ++ run) = some (run.take 11)
      unfold extract_video_id
      rw [hmatch patV]
    · show extract_video_id (patBe ++ run) = some (run.take 11)
      have h1 : searchToken patV (patBe ++ run) = none :=
        hnone patV ⟨'=', by decide, by decide, by decide⟩
      unfold extract_video_id
      rw [h1, hmatch patBe]
    · show extract_video_id (patShorts ++ run) = some (run.take 11)
      have h1 : searchToken patV (patShorts ++ run) = none :=
        hnone patV ⟨'=', by decide, by decide, by decide⟩
      have h2 : searchToken patBe (patShorts ++ run) = none :=
        hnone patBe ⟨'.', by decide, by decide, by decide⟩
      unfold extract_video_id
      rw [h1, h2, hmatch patShorts]

theorem extract_id_truncates_long_run_witness :
    (patV ∈ shapePats ∧ (∀ c ∈ "abcdefghijkl".toList, isTokenChar c = true) ∧
      12 ≤ "abcdefghijkl".toList.length) ∧
    extract_video_id (patV ++ "abcdefghijkl".toList) =
      some ("abcdefghijkl".toList.take 11) :=
  ⟨⟨by decide, by decide, by decide⟩,
    extract_id_truncates_long_run.2 patV "abcdefghijkl".toList
      (by decide) (by decide) (by decide)⟩

/-! ### Claims about the Transcript Retriever -/

/-- Claim C1: `fetch_transcript` first selects a human-authored track in the
ranked order `[ko, en, en-US, en-GB]` (the selected track is human-authored
and its language is the first preferred language having a human-authored
track); only when no human-authored track exists in any of those languages
does it fall back to an auto-generated track restricted to
`[en, en-US, en-GB]`; a video whose only track is an auto-generated Korean
one makes `fetch_transcript` fail. -/
theorem fetch_transcript_fallback_policy {β : Type} (env : Env β) (vid : List Char)
    (tl : List Track) (hlist : env.listTranscripts vid = .ok tl) :
    ((∃ l ∈ preferredLangs, hasTrack tl false l = true) →
       ∃ t ∈ tl, t.isGenerated = false ∧
         preferredLangs.find? (fun l => hasTrack tl false l) = some t.language ∧
         fetch_transcript env vid = .ok (transcriptText t)) ∧
    ((∀ l ∈ preferredLangs, hasTrack tl false l = false) →
       (∀ s, fetch_transcript env vid = .ok s →
          ∃ t ∈ tl, t.isGenerated = true ∧ t.language ∈ generatedLangs ∧
            s = transcriptText t) ∧
       ((∃ l ∈ generatedLangs, hasTrack tl true l = true) →
          ∃ s, fetch_transcript env vid = .ok s)) ∧
    (∀ fr, tl = [⟨"ko", true, fr⟩] →
       fetch_transcript env vid = .error .noTranscriptFound) := by
  refine ⟨?_, ?_, ?_⟩
  · intro hex
    have hsome : (find_first_track tl false preferredLangs).isSome = true :=
      find_first_track_isSome hex
    obtain ⟨t, ht⟩ := Option.isSome_iff_exists.mp hsome
    obtain ⟨hmem, hgen, hfind⟩ := find_first_track_eq_some ht
    refine ⟨t, hmem, hgen, hfind, ?_⟩
    simp [fetch_transcript, hlist, select_transcript, find_transcript, ht]
  · intro hnone
    have hfd : find_transcript tl preferredLangs = none := by
      unfold find_transcript
      exact find_first_track_eq_none.mpr hnone
    constructor
    · intro s hs
      simp only [fetch_transcript, hlist] at hs
      cases hsel : select_transcript tl with
      | none => rw [hsel] at hs; exact absurd hs (by simp)
      | some t =>
        rw [hsel] at hs
        have hst : transcriptText t = s := by simpa using hs
        unfold select_transcript at hsel
        rw [hfd] at hsel
        obtain ⟨hmem, hgen, hfind⟩ := find_first_track_eq_some hsel
        exact ⟨t, hmem, hgen, List.mem_of_find?_eq_some hfind, hst.symm⟩
    · intro hex
      have hsome : (find_first_track tl true generatedLangs).isSome = true :=
        find_first_track_isSome hex
      obtain ⟨t, ht⟩ := Option.isSome_iff_exists.mp hsome
      refine ⟨transcriptText t, ?_⟩
      simp [fetch_transcript, hlist, select_transcript, hfd, find_generated_transcript, ht]
  · intro fr htl
    subst htl
    have h1 : find_transcript [⟨"ko", true, fr⟩] preferredLangs = none := by
      unfold find_transcript
      apply find_first_track_eq_none.mpr
      intro l _
      simp [hasTrack]
    have h2 : find_generated_transcript [⟨"ko", true, fr⟩] generatedLangs = none := by
      unfold find_generated_transcript
      apply find_first_track_eq_none.mpr
      intro l hl
      simp only [generatedLangs, List.mem_cons, List.not_mem_nil, or_false] at hl
      rcases hl with hl | hl | hl <;> subst hl <;> simp [hasTrack]
    simp [fetch_transcript, hlist, select_transcript, h1, h2]

/-! ### Concrete test data shared by the witnesses -/

/-- A generated English track plus a human-authored Korean track. -/
def testTracks : List Track :=
  [⟨"en", true, [⟨"gen en", 0, 2⟩]⟩,
   ⟨"ko", false, [⟨"hello", 0, 1⟩, ⟨"world", 1, 1⟩]⟩]

/-- A fully successful environment. -/
def testEnvA : Env (List Nat) :=
  ⟨fun _ => .ok testTracks, fun t => .ok ("S:" ++ t),
   fun _ => .ok ⟨some [1, 2], some [3]⟩⟩

/-- An environment whose speech synthesis fails. -/
def testEnvB : Env (List Nat) :=
  ⟨fun _ => .ok testTracks, fun t => .ok ("S:" ++ t), fun _ => .error "boom"⟩

theorem fetch_transcript_fallback_policy_witness :
    (∃ l ∈ preferredLangs, hasTrack testTracks false l = true) ∧
    (∃ t ∈ testTracks, t.isGenerated = false ∧
      preferredLangs.find? (fun l => hasTrack testTracks false l) = some t.language ∧
      fetch_transcript testEnvA ['x'] = .ok (transcriptText t)) :=
  ⟨⟨"ko", by decide, by decide⟩,
    (fetch_transcript_fallback_policy testEnvA ['x'] testTracks rfl).1
      ⟨"ko", by decide, by decide⟩⟩

/-- Claim C8: `fetch_transcript` returns the selected track's fragment texts
concatenated in their original order with a single space between consecutive
fragments (no deduplication of repeated texts, and timestamps do not
influence the output). -/
theorem fetch_transcript_join_fragments {β : Type} (env : Env β) (vid : List Char)
    (tl : List Track) (t : Track)
    (hlist : env.listTranscripts vid = .ok tl) (hsel : select_transcript tl = some t) :
    fetch_transcript env vid = .ok (joinSpec (t.fragments.map Fragment.text)) ∧
    (∀ fr : List Fragment, fr.map Fragment.text = t.fragments.map Fragment.text →
       transcriptText ⟨t.language, t.isGenerated, fr⟩ = transcriptText t) ∧
    (∀ x : String, ∀ l : List String, joinSpec (x :: x :: l) = x ++ " " ++ joinSpec (x :: l)) := by
  refine ⟨?_, ?_, ?_⟩
  · have : transcriptText t = joinSpec (t.fragments.map Fragment.text) := by
      unfold transcriptText
      exact intercalate_space_eq_joinSpec _
    simp [fetch_transcript, hlist, hsel, this]
  · intro fr hfr
    exact transcriptText_texts_only (by simpa using hfr)
  · intro x l
    rfl

theorem fetch_transcript_join_fragments_witness :
    select_transcript testTracks = some ⟨"ko", false, [⟨"hello", 0, 1⟩, ⟨"world", 1, 1⟩]⟩ ∧
    fetch_transcript testEnvA ['x'] =
      .ok (joinSpec (([⟨"hello", 0, 1⟩, ⟨"world", 1, 1⟩] : List Fragment).map Fragment.text)) :=
  ⟨by decide,
    (fetch_transcript_join_fragments testEnvA ['x'] testTracks
      ⟨"ko", false, [⟨"hello", 0, 1⟩, ⟨"world", 1, 1⟩]⟩ rfl (by decide)).1⟩

/-! ### Claims about the Pipeline Orchestrator -/

/-- Claim C4: `brew` with an empty credential, an empty URL, or a URL
yielding no identifier performs zero remote calls and reports the matching
validation error with the session state untouched; conversely any
validation-error outcome of `brew` comes with an empty call list and an
unchanged state. -/
theorem brew_validation_fail_fast {β : Type} (env : Env β) (api_key : String)
    (s : SState β) :
    (api_key = "" → brew env api_key s = (s, .errKeyMissing, [])) ∧
    (api_key ≠ "" → s.video_url = "" → brew env api_key s = (s, .errUrlMissing, [])) ∧
    (api_key ≠ "" → s.video_url ≠ "" → extract_video_id s.video_url.toList = none →
       brew env api_key s = (s, .errInvalidUrl, [])) ∧
    (∀ r o calls, brew env api_key s = (r, o, calls) → o.isValidationError = true →
       calls = [] ∧ r = s) := by
  refine ⟨?_, ?_, ?_, ?_⟩
  · intro hk
    simp [brew, hk]
  · intro hk hu
    simp [brew, hk, hu]
  · intro hk hu hv
    have hv' : extract_video_id s.video_url.data = none := hv
    simp [brew, hk, hu, hv']
  · intro r o calls hrun hval
    unfold brew at hrun
    split at hrun
    · simp only [Prod.mk.injEq] at hrun
      exact ⟨hrun.2.2.symm, hrun.1.symm⟩
    · split at hrun
      · simp only [Prod.mk.injEq] at hrun
        exact ⟨hrun.2.2.symm, hrun.1.symm⟩
      · split at hrun
        · simp only [Prod.mk.injEq] at hrun
          exact ⟨hrun.2.2.symm, hrun.1.symm⟩
        · split at hrun
          · simp only [Prod.mk.injEq] at hrun
            rw [← hrun.2.1] at hval
            simp [Outcome.isValidationError] at hval
          · split at hrun
            · simp only [Prod.mk.injEq] at hrun
              rw [← hrun.2.1] at hval
              simp [Outcome.isValidationError] at hval
            · split at hrun
              · simp only [Prod.mk.injEq] at hrun
                rw [← hrun.2.1] at hval
                simp [Outcome.isValidationError] at hval
              · simp only [Prod.mk.injEq] at hrun
                rw [← hrun.2.1] at hval
                simp [Outcome.isValidationError] at hval

theorem brew_validation_fail_fast_witness :
    brew testEnvA "" (⟨none, none, "u"⟩ : SState (List Nat)) =
      (⟨none, none, "u"⟩, .errKeyMissing, []) :=
  (brew_validation_fail_fast testEnvA "" ⟨none, none, "u"⟩).1 rfl

/-- A URL whose `v=` shape carries the identifier `abcdEFGH12_`. -/
def urlA : String := "https://www.youtube.com/watch?v=abcdEFGH12_"

/-- Claim C5: on the success path the generated script is stored exactly as
the generation service returned it, the synthesis stage is invoked with
exactly that string, and the stored audio is exactly `create_tts_audio`'s
normalized result — which equals the service's bytes whenever the response
exposes them. -/
theorem brew_passthrough_unmodified {β : Type} (env : Env β) (api_key : String)
    (s : SState β) (vid : List Char) (tt g : String) (resp : TtsResponse β)
    (hkey : api_key ≠ "") (hurl : s.video_url ≠ "")
    (hvid : extract_video_id s.video_url.toList = some vid)
    (htt : fetch_transcript env vid = .ok tt) (hne : tt ≠ "")
    (hgen : env.chatCompletion tt = .ok g)
    (htts : env.ttsSpeech g = .ok resp) :
    brew env api_key s =
      ({ s with script := some g, audio := some (normalize_tts_response resp) }, .done,
        [.listTranscripts vid, .chatCompletion tt, .ttsSpeech g]) ∧
    (∀ b : β, resp.readAttr = some b ∨ (resp.readAttr = none ∧ resp.contentAttr = some b) →
       normalize_tts_response resp = .bytes b) := by
  constructor
  · have hvid' : extract_video_id s.video_url.data = some vid := hvid
    simp [brew, hkey, hurl, hvid', htt, create_chat_completion, hgen,
      create_tts_audio, htts, Except.map]
  · rintro b (hb | ⟨hb1, hb2⟩)
    · simp [normalize_tts_response, hb]
    · simp [normalize_tts_response, hb1, hb2]

theorem brew_passthrough_unmodified_witness :
    ("k" : String) ≠ "" ∧
    brew testEnvA "k" (⟨none, none, urlA⟩ : SState (List Nat)) =
      (⟨some "S:hello world", some (TtsValue.bytes [1, 2]), urlA⟩, .done,
        [.listTranscripts "abcdEFGH12_".toList, .chatCompletion "hello world",
         .ttsSpeech "S:hello world"]) :=
  ⟨by decide,
    (brew_passthrough_unmodified testEnvA "k" ⟨none, none, urlA⟩ "abcdEFGH12_".toList
      "hello world" "S:hello world" ⟨some [1, 2], some [3]⟩
      (by decide) (by decide) (by decide) rfl (by decide) rfl rfl).1⟩

/-- Claim C6: when a stage fails, later stages are not invoked (the call
trace stops at the failing stage), already-produced artifacts are not rolled
back (a synthesis failure keeps the stored script), and transcript-category
failures surface a message distinct from the generic one. -/
theorem brew_failure_aborts_no_rollback {β : Type} (env : Env β) (api_key : String)
    (s : SState β) (vid : List Char)
    (hkey : api_key ≠ "") (hurl : s.video_url ≠ "")
    (hvid : extract_video_id s.video_url.toList = some vid) :
    (∀ e, fetch_transcript env vid = .error e →
       brew env api_key s = (s, .errTranscript e, [.listTranscripts vid])) ∧
    (∀ tt m, fetch_transcript env vid = .ok tt → env.chatCompletion tt = .error m →
       brew env api_key s = (s, .errGeneric m, [.listTranscripts vid, .chatCompletion tt])) ∧
    (∀ tt g m, fetch_transcript env vid = .ok tt → env.chatCompletion tt = .ok g →
       env.ttsSpeech g = .error m →
       brew env api_key s =
         ({ s with script := some g }, .errGeneric m,
           [.listTranscripts vid, .chatCompletion tt, .ttsSpeech g])) ∧
    (∀ e m, Outcome.message (.errTranscript e) ≠ Outcome.message (.errGeneric m)) := by
  have hvid' : extract_video_id s.video_url.data = some vid := hvid
  refine ⟨?_, ?_, ?_, ?_⟩
  · intro e he
    simp [brew, hkey, hurl, hvid', he]
  · intro tt m h1 h2
    simp [brew, hkey, hurl, hvid', h1, create_chat_completion, h2]
  · intro tt g m h1 h2 h3
    simp [brew, hkey, hurl, hvid', h1, create_chat_completion, h2, create_tts_audio, h3,
      Except.map]
  · intro e m h
    simp only [Outcome.message, Option.some.injEq] at h
    have h1 : (("자막을 찾을 수 없습니다. 다른 영상으로 시도해 주세요. (" ++ e.excName ++ ")").data).head? =
        some '자' := rfl
    rw [h] at h1
    have h2 : (("문제가 발생했습니다: " ++ m).data).head? = some '문' := rfl
    rw [h2] at h1
    exact absurd (Option.some.inj h1) (by decide)

theorem brew_failure_aborts_no_rollback_witness :
    brew testEnvB "k" (⟨none, none, urlA⟩ : SState (List Nat)) =
      (⟨some "S:hello world", none, urlA⟩, .errGeneric "boom",
        [.listTranscripts "abcdEFGH12_".toList, .chatCompletion "hello world",
         .ttsSpeech "S:hello world"]) :=
  (brew_failure_aborts_no_rollback testEnvB "k" ⟨none, none, urlA⟩ "abcdEFGH12_".toList
    (by decide) (by decide) (by decide)).2.2.1 "hello world" "S:hello world" "boom"
    rfl rfl rfl

/-- Claim C7: a successful `brew` leaves a non-null script and audio, and
`reset` then clears all artifacts — the stored script, the stored audio, and
the URL (so no identifier can be extracted any more) — returning the
orchestrator to the idle state. -/
theorem reset_clears_artifacts {β : Type} (env : Env β) (api_key : String)
    (s r : SState β) (calls : List CallEvent)
    (hrun : brew env api_key s = (r, .done, calls)) :
    r.script.isSome = true ∧ r.audio.isSome = true ∧
    reset_state r = (⟨none, none, ""⟩ : SState β) ∧ Idle (reset_state r) ∧
    extract_video_id ((reset_state r).video_url.toList) = none := by
  have hra : r.script.isSome = true ∧ r.audio.isSome = true := by
    unfold brew at hrun
    split at hrun
    · simp at hrun
    · split at hrun
      · simp at hrun
      · split at hrun
        · simp at hrun
        · split at hrun
          · simp at hrun
          · split at hrun
            · simp at hrun
            · split at hrun
              · simp at hrun
              · simp only [Prod.mk.injEq] at hrun
                obtain ⟨hr, -, -⟩ := hrun
                rw [← hr]
                simp
  refine ⟨hra.1, hra.2, rfl, ?_, rfl⟩
  simp [Idle, reset_state]

theorem reset_clears_artifacts_witness :
    brew testEnvA "k" (⟨none, none, urlA⟩ : SState (List Nat)) =
      (⟨some "S:hello world", some (TtsValue.bytes [1, 2]), urlA⟩, .done,
        [.listTranscripts "abcdEFGH12_".toList, .chatCompletion "hello world",
         .ttsSpeech "S:hello world"]) ∧
    Idle (reset_state
      (⟨some "S:hello world", some (TtsValue.bytes [1, 2]), urlA⟩ : SState (List Nat))) :=
  ⟨by decide,
    (reset_clears_artifacts testEnvA "k" ⟨none, none, urlA⟩
      ⟨some "S:hello world", some (TtsValue.bytes [1, 2]), urlA⟩
      [.listTranscripts "abcdEFGH12_".toList, .chatCompletion "hello world",
       .ttsSpeech "S:hello world"]
      (by decide)).2.2.2.1⟩

/-- Claim C10: the synthesis-response normalization checks `read` before
`content` — a response exposing `read` yields the `read` bytes even when
`content` is also present; `content` alone yields the `content` bytes; a
response exposing neither is returned unchanged. -/
theorem tts_response_normalization {β : Type} (r : TtsResponse β) :
    (∀ b, r.readAttr = some b → normalize_tts_response r = .bytes b) ∧
    (r.readAttr = none → ∀ b, r.contentAttr = some b → normalize_tts_response r = .bytes b) ∧
    (r.readAttr = none → r.contentAttr = none → normalize_tts_response r = .raw r) := by
  refine ⟨?_, ?_, ?_⟩
  · intro b hb
    simp [normalize_tts_response, hb]
  · intro h1 b hb
    simp [normalize_tts_response, h1, hb]
  · intro h1 h2
    simp [normalize_tts_response, h1, h2]

theorem tts_response_normalization_witness :
    (⟨some [1], some [2]⟩ : TtsResponse (List Nat)).readAttr = some [1] ∧
    normalize_tts_response (⟨some [1], some [2]⟩ : TtsResponse (List Nat)) =
      TtsValue.bytes [1] :=
  ⟨rfl, (tts_response_normalization ⟨some [1], some [2]⟩).1 [1] rfl⟩

/-! ### The extractor over an arbitrary interpretation of the class

Python 3 matches `\w` of a `str` pattern against Unicode word characters,
not only ASCII ones.  The definitions below repeat the extractor of
src/app.py lines 45–55 over an arbitrary class `cls` standing for the
bracket class `[\w-]`; a theorem proved for every `cls` holds in particular
at the class Python actually uses. -/

/-- `matchClassN` with the class left abstract. -/
def matchClassNW (cls : Char → Bool) : List Char → Nat → Option (List Char)
  | _, 0 => some []
  | [], _ + 1 => none
  | c :: rest, n + 1 =>
    if cls c then (matchClassNW cls rest n).map (fun l => c :: l) else none

/-- `matchHere` with the class left abstract. -/
def matchHereW (cls : Char → Bool) (pre s : List Char) : Option (List Char) :=
  if pre.isPrefixOf s then matchClassNW cls (s.drop pre.length) 11 else none

/-- `searchToken` with the class left abstract. -/
def searchTokenW (cls : Char → Bool) (pre : List Char) : List Char → Option (List Char)
  | [] => matchHereW cls pre []
  | c :: rest =>
    match matchHereW cls pre (c :: rest) with
    | some tok => some tok
    | none => searchTokenW cls pre rest

/-- `extract_video_id` (src/app.py lines 45–55) with the interpretation of
`[\w-]` left abstract. -/
def extract_video_idW (cls : Char → Bool) (url : List Char) : Option (List Char) :=
  match searchTokenW cls patV url with
  | some t => some t
  | none =>
    match searchTokenW cls patBe url with
    | some t => some t
    | none => searchTokenW cls patShorts url

/-- The pattern class `[\w-]` under Python's Unicode `\w`, modelled
faithfully for every code point up to U+00FF: the ASCII word characters and
hyphen, plus the Latin-1 alphanumerics ª ² ³ µ ¹ º ¼ ½ ¾ and the letters
À–ÿ except × and ÷.  Word characters above U+00FF exist in Python but are
not modelled; no statement below instantiates the class at such a code
point. -/
def pyTokenChar (c : Char) : Bool :=
  isTokenChar c || c = 'ª' || c = '²' || c = '³' || c = 'µ' || c = '¹' || c = 'º' ||
    c = '¼' || c = '½' || c = '¾' ||
    (('À' ≤ c && c ≤ 'ÿ') && !(c = '×') && !(c = '÷'))

/-- The character class the original claim asserts: `[A-Za-z0-9_-]`. -/
def urlSafeChar (c : Char) : Bool :=
  ('A' ≤ c && c ≤ 'Z') || ('a' ≤ c && c ≤ 'z') || ('0' ≤ c && c ≤ '9') ||
    c = '_' || c = '-'

/-- `url` contains one of the three shapes with the token drawn from the
class `cls`. -/
def containsShapeW (cls : Char → Bool) (url : List Char) : Prop :=
  ∃ t, t.length = 11 ∧ (∀ c ∈ t, cls c = true) ∧ shapeTokenAt url t

/-! ### Lemmas about the abstract-class matcher -/

theorem matchClassNW_eq_some {cls : Char → Bool} {s t : List Char} {n : Nat}
    (h : matchClassNW cls s n = some t) :
    t = s.take n ∧ t.length = n ∧ ∀ c ∈ t, cls c = true := by
  induction n generalizing s t with
  | zero =>
    simp [matchClassNW] at h
    subst h
    simp
  | succ n ih =>
    cases s with
    | nil => simp [matchClassNW] at h
    | cons c rest =>
      simp only [matchClassNW] at h
      by_cases hc : cls c = true
      · rw [if_pos hc] at h
        cases htl : matchClassNW cls rest n with
        | none => rw [htl] at h; simp at h
        | some t' =>
          rw [htl] at h
          obtain ⟨ht', hlen, hall⟩ := ih htl
          have ht : t = c :: t' := by
            have := h.symm
            simpa using this
          subst ht
          refine ⟨by simp [ht'], by simp [hlen], ?_⟩
          intro d hd
          rcases List.mem_cons.mp hd with hd | hd
          · rw [hd]; exact hc
          · exact hall d hd
      · rw [if_neg hc] at h
        simp at h

theorem matchHereW_eq_some {cls : Char → Bool} {pre s t : List Char}
    (h : matchHereW cls pre s = some t) :
    ∃ b, s = pre ++ t ++ b ∧ t.length = 11 ∧ ∀ c ∈ t, cls c = true := by
  unfold matchHereW at h
  by_cases hp : pre.isPrefixOf s
  · rw [if_pos hp] at h
    obtain ⟨rest, hrest⟩ := List.isPrefixOf_iff_prefix.mp hp
    have hdrop : s.drop pre.length = rest := by
      rw [← hrest]
      exact List.drop_left pre rest
    rw [hdrop] at h
    obtain ⟨ht, hlen, hall⟩ := matchClassNW_eq_some h
    refine ⟨rest.drop 11, ?_, hlen, hall⟩
    rw [← hrest, List.append_assoc]
    congr 1
    rw [ht, List.take_append_drop]
  · rw [if_neg hp] at h
    simp at h

theorem searchTokenW_eq_some {cls : Char → Bool} {pre s t : List Char}
    (h : searchTokenW cls pre s = some t) :
    ∃ a b, s = a ++ pre ++ t ++ b ∧ t.length = 11 ∧ ∀ c ∈ t, cls c = true := by
  induction s with
  | nil =>
    obtain ⟨b, hb, hlen, hall⟩ := matchHereW_eq_some (h : matchHereW cls pre [] = some t)
    exact ⟨[], b, by simpa using hb, hlen, hall⟩
  | cons c rest ih =>
    rw [searchTokenW] at h
    cases hm : matchHereW cls pre (c :: rest) with
    | some tok =>
      rw [hm] at h
      obtain ⟨b, hb, hlen, hall⟩ := matchHereW_eq_some hm
      have ht : tok = t := by simpa using h
      subst ht
      exact ⟨[], b, by simpa using hb, hlen, hall⟩
    | none =>
      rw [hm] at h
      obtain ⟨a, b, hb, hlen, hall⟩ := ih h
      exact ⟨c :: a, b, by simp [hb], hlen, hall⟩

theorem extract_video_idW_sound {cls : Char → Bool} {url t : List Char}
    (h : extract_video_idW cls url = some t) :
    (∃ p ∈ shapePats, ∃ a b, url = a ++ p ++ t ++ b) ∧
      t.length = 11 ∧ ∀ c ∈ t, cls c = true := by
  unfold extract_video_idW at h
  cases h1 : searchTokenW cls patV url with
  | some tok =>
    rw [h1] at h
    have ht : tok = t := by simpa using h
    subst ht
    obtain ⟨a, b, hb, hlen, hall⟩ := searchTokenW_eq_some h1
    exact ⟨⟨patV, by simp [shapePats], a, b, hb⟩, hlen, hall⟩
  | none =>
    rw [h1] at h
    cases h2 : searchTokenW cls patBe url with
    | some tok =>
      rw [h2] at h
      have ht : tok = t := by simpa using h
      subst ht
      obtain ⟨a, b, hb, hlen, hall⟩ := searchTokenW_eq_some h2
      exact ⟨⟨patBe, by simp [shapePats], a, b, hb⟩, hlen, hall⟩
    | none =>
      rw [h2] at h
      obtain ⟨a, b, hb, hlen, hall⟩ := searchTokenW_eq_some h
      exact ⟨⟨patShorts, by simp [shapePats], a, b, hb⟩, hlen, hall⟩

theorem matchClassNW_take {cls : Char → Bool} {s : List Char} {n : Nat}
    (hn : n ≤ s.length) (hall : ∀ c ∈ s.take n, cls c = true) :
    matchClassNW cls s n = some (s.take n) := by
  induction n generalizing s with
  | zero => simp [matchClassNW]
  | succ n ih =>
    cases s with
    | nil => simp at hn
    | cons c rest =>
      have hc : cls c = true := by
        apply hall
        simp [List.take]
      have hrest : matchClassNW cls rest n = some (rest.take n) := by
        apply ih
        · simpa using Nat.le_of_succ_le_succ hn
        · intro d hd
          apply hall
          simp [List.take, hd]
      simp [matchClassNW, hc, hrest, List.take]

theorem matchHereW_append {cls : Char → Bool} {pre t b : List Char}
    (hlen : t.length = 11) (hall : ∀ c ∈ t, cls c = true) :
    matchHereW cls pre (pre ++ t ++ b) = some t := by
  have hp : pre.isPrefixOf (pre ++ t ++ b) = true := by
    apply List.isPrefixOf_iff_prefix.mpr
    rw [List.append_assoc]
    exact List.prefix_append pre (t ++ b)
  unfold matchHereW
  rw [if_pos hp, List.append_assoc, List.drop_left]
  have htake : (t ++ b).take 11 = t := by
    rw [← hlen]
    exact List.take_left t b
  rw [matchClassNW_take (by simp [hlen]) (by rw [htake]; exact hall), htake]

theorem searchTokenW_of_matchHere {cls : Char → Bool} {pre s tok : List Char}
    (hm : matchHereW cls pre s = some tok) : searchTokenW cls pre s = some tok := by
  cases s with
  | nil => simpa [searchTokenW] using hm
  | cons c rest => simp [searchTokenW, hm]

theorem searchTokenW_isSome_append (cls : Char → Bool) (pre a t b : List Char)
    (hlen : t.length = 11) (hall : ∀ c ∈ t, cls c = true) :
    (searchTokenW cls pre (a ++ pre ++ t ++ b)).isSome = true := by
  induction a with
  | nil =>
    have := searchTokenW_of_matchHere (@matchHereW_append cls pre t b hlen hall)
    simp only [List.nil_append]
    rw [this]
    rfl
  | cons c a' ih =>
    have hs : (c :: a') ++ pre ++ t ++ b = c :: (a' ++ pre ++ t ++ b) := by simp
    rw [hs, searchTokenW]
    cases hm : matchHereW cls pre (c :: (a' ++ pre ++ t ++ b)) with
    | some tok => rfl
    | none => exact ih

theorem extract_video_idW_isSome_of_search {cls : Char → Bool} {url : List Char}
    (h : (searchTokenW cls patV url).isSome = true ∨
      (searchTokenW cls patBe url).isSome = true ∨
      (searchTokenW cls patShorts url).isSome = true) :
    (extract_video_idW cls url).isSome = true := by
  unfold extract_video_idW
  cases h1 : searchTokenW cls patV url with
  | some tok => rfl
  | none =>
    cases h2 : searchTokenW cls patBe url with
    | some tok => rfl
    | none =>
      rcases h with h | h | h
      · rw [h1] at h; simp at h
      · rw [h2] at h; simp at h
      · exact h

theorem extract_video_idW_isSome_of_shape {cls : Char → Bool} {url p t a b : List Char}
    (hp : p ∈ shapePats) (hurl : url = a ++ p ++ t ++ b)
    (hlen : t.length = 11) (hall : ∀ c ∈ t, cls c = true) :
    (extract_video_idW cls url).isSome = true := by
  subst hurl
  apply extract_video_idW_isSome_of_search
  simp only [shapePats, List.mem_cons, List.not_mem_nil, or_false] at hp
  rcases hp with hp | hp | hp <;> subst hp
  · exact Or.inl (searchTokenW_isSome_append cls _ _ _ _ hlen hall)
  · exact Or.inr (Or.inl (searchTokenW_isSome_append cls _ _ _ _ hlen hall))
  · exact Or.inr (Or.inr (searchTokenW_isSome_append cls _ _ _ _ hlen hall))

/-! ### The ASCII instance coincides with the extractor used elsewhere -/

theorem matchClassNW_ascii : ∀ (s : List Char) (n : Nat),
    matchClassNW isTokenChar s n = matchClassN s n := by
  intro s n
  induction n generalizing s with
  | zero => simp [matchClassNW, matchClassN]
  | succ n ih =>
    cases s with
    | nil => simp [matchClassNW, matchClassN]
    | cons c rest => simp [matchClassNW, matchClassN, ih]

theorem matchHereW_ascii (pre s : List Char) :
    matchHereW isTokenChar pre s = matchHere pre s := by
  simp [matchHereW, matchHere, matchClassNW_ascii]

theorem searchTokenW_ascii (pre : List Char) : ∀ s : List Char,
    searchTokenW isTokenChar pre s = searchToken pre s := by
  intro s
  induction s with
  | nil => simp [searchTokenW, searchToken, matchHereW_ascii]
  | cons c rest ih =>
    rw [searchTokenW, searchToken, matchHereW_ascii]
    cases hm : matchHere pre (c :: rest) with
    | some tok => rfl
    | none => exact ih

theorem extract_video_idW_ascii (url : List Char) :
    extract_video_idW isTokenChar url = extract_video_id url := by
  simp [extract_video_idW, extract_video_id, searchTokenW_ascii]

/-- Claim C2, amended: every identifier returned by the extractor is exactly
eleven characters long and every character belongs to the pattern's class
`[\w-]` — stated for every interpretation `cls` of that class, hence in
particular for Python's Unicode one.  The ASCII class `[A-Za-z0-9_-]` of the
original claim does not hold: see `extract_id_charclass_counterexample`. -/
theorem extract_id_length_class_invariant (cls : Char → Bool) (url t : List Char)
    (h : extract_video_idW cls url = some t) :
    t.length = 11 ∧ ∀ c ∈ t, cls c = true :=
  ⟨(extract_video_idW_sound h).2.1, (extract_video_idW_sound h).2.2⟩

theorem extract_id_length_class_invariant_witness :
    extract_video_idW pyTokenChar "v=ééééééééééé".toList = some "ééééééééééé".toList ∧
    ("ééééééééééé".toList.length = 11 ∧
      ∀ c ∈ "ééééééééééé".toList, pyTokenChar c = true) :=
  ⟨by decide,
    extract_id_length_class_invariant pyTokenChar "v=ééééééééééé".toList
      "ééééééééééé".toList (by decide)⟩

/-- Claim C2 as stated is false of the program: Python's `\w` matches the
Latin-1 letter é, so for the URL `v=ééééééééééé` the program returns the
eleven-character token `ééééééééééé`, none of whose characters lies in the
claimed class `[A-Za-z0-9_-]`. -/
theorem extract_id_charclass_counterexample :
    extract_video_idW pyTokenChar "v=ééééééééééé".toList = some "ééééééééééé".toList ∧
    ∀ c ∈ "ééééééééééé".toList, urlSafeChar c = false := by
  constructor
  · decide
  · decide

/-- Claim C3, amended: with the shapes' token class read as the pattern's
`[\w-]` (any interpretation `cls` of `\w`, not only ASCII URL-safe
characters), a URL contains a shape exactly when the extractor succeeds,
any returned token is the eleven-character token of a contained shape, and
a URL containing no such shape yields `none`.  With the token class read as
ASCII `[A-Za-z0-9_-]` as the original claim words it, the none-direction is
false of the program: see `extract_id_shape_counterexample`. -/
theorem extract_id_shape_correct_amended (cls : Char → Bool) (url : List Char) :
    (containsShapeW cls url ↔ (extract_video_idW cls url).isSome = true) ∧
    (∀ t, extract_video_idW cls url = some t →
       t.length = 11 ∧ (∀ c ∈ t, cls c = true) ∧ shapeTokenAt url t) ∧
    (¬ containsShapeW cls url → extract_video_idW cls url = none) := by
  have hsound : ∀ t, extract_video_idW cls url = some t →
      t.length = 11 ∧ (∀ c ∈ t, cls c = true) ∧ shapeTokenAt url t := by
    intro t h
    obtain ⟨hshape, hlen, hall⟩ := extract_video_idW_sound h
    exact ⟨hlen, hall, hshape⟩
  have hiff : containsShapeW cls url ↔ (extract_video_idW cls url).isSome = true := by
    constructor
    · rintro ⟨t, hlen, hall, p, hp, a, b, hurl⟩
      exact extract_video_idW_isSome_of_shape hp hurl hlen hall
    · intro h
      obtain ⟨t, ht⟩ := Option.isSome_iff_exists.mp h
      obtain ⟨hlen, hall, hshape⟩ := hsound t ht
      exact ⟨t, hlen, hall, hshape⟩
  refine ⟨hiff, hsound, ?_⟩
  intro hno
  cases hext : extract_video_idW cls url with
  | none => rfl
  | some t =>
    exact absurd (hiff.mpr (by rw [hext]; rfl)) hno

theorem extract_id_shape_correct_amended_witness :
    extract_video_idW pyTokenChar "https://youtu.be/ÀÁÂÃÄÅÆÇÈÉÊ".toList =
      some "ÀÁÂÃÄÅÆÇÈÉÊ".toList ∧
    shapeTokenAt "https://youtu.be/ÀÁÂÃÄÅÆÇÈÉÊ".toList "ÀÁÂÃÄÅÆÇÈÉÊ".toList :=
  ⟨by decide,
    ((extract_id_shape_correct_amended pyTokenChar
      "https://youtu.be/ÀÁÂÃÄÅÆÇÈÉÊ".toList).2.1 "ÀÁÂÃÄÅÆÇÈÉÊ".toList
      (by decide)).2.2⟩

/-- Claim C3 as stated is false of the program: the URL `v=ééééééééééé`
contains none of the three shapes when the token positions are restricted to
URL-safe ASCII characters as the claim words them, yet the program (with
`\w` read faithfully on Latin-1) returns a token instead of the not-found
signal. -/
theorem extract_id_shape_counterexample :
    ¬ containsShape "v=ééééééééééé".toList ∧
    extract_video_idW pyTokenChar "v=ééééééééééé".toList = some "ééééééééééé".toList := by
  constructor
  · rintro ⟨t, hlen, hall, p, hp, a, b, hurl⟩
    have hs := extract_video_id_isSome_of_shape hp hurl hlen hall
    rw [show extract_video_id "v=ééééééééééé".toList = none from by decide] at hs
    simp at hs
  · decide
